import Mathlib

/-
Verification development for the `Trie` repository (trie.hpp, trie_iterator.hpp,
score_function.hpp, knn_trie.hpp).

The C++ `Trie<Key, Data>` is embedded shallowly: a node holds a data item and an
ordered vector of (key-element, child) pairs; keys are element sequences, embedded
as `List α`.  Mutation becomes explicit rebuilding of the affected nodes.
-/

set_option autoImplicit false
set_option linter.unusedSectionVars false
set_option linter.unusedVariables false

namespace TrieCpp

/-- Shallow embedding of a `Trie<Key, Data>` node (trie.hpp lines 37-51): the field
`_data` of type `Data` and the field `_nodes`, a vector of
(key-element, owned child) pairs. -/
inductive Trie (α : Type) (δ : Type) : Type where
  | mk (data : δ) (nodes : List (α × Trie α δ)) : Trie α δ

variable {α : Type} {δ : Type}

/-- Accessor for the `_data` field (`data()` in trie.hpp line 88). -/
def Trie.data : Trie α δ → δ
  | .mk d _ => d

/-- Accessor for the `_nodes` field. -/
def Trie.nodes : Trie α δ → List (α × Trie α δ)
  | .mk _ ns => ns

/-- A default-constructed node, `Trie() : _data{}` with an empty `_nodes` vector
(trie.hpp line 54): data is default constructed, Data being default constructible. -/
def emptyTrie [Inhabited δ] : Trie α δ := .mk default []

/-- Embedding of `nlower_bound` followed by the equality check used by `match` and
`find` (trie.hpp lines 103-105, 186-188): `std::lower_bound` on the vector (sorted
ascending by element) stops at the first entry whose element is not `< e`; the entry
is returned when its element equals `e`.  On a sorted vector the binary search is
extensionally this left-to-right scan. -/
def nfind? [LinearOrder α] : List (α × Trie α δ) → α → Option (Trie α δ)
  | [], _ => none
  | (a, c) :: rest, e =>
    if a < e then nfind? rest e
    else if a = e then some c else none

/-- Embedding of `insert_node` (trie.hpp lines 107-114) combined with an update of
the node it returns an iterator to: `nlower_bound` finds the position, a fresh
default node is emplaced there unless the element is already present, and `g` is
the modification subsequently performed through the returned iterator. -/
def updChild [LinearOrder α] [Inhabited δ] :
    List (α × Trie α δ) → α → (Trie α δ → Trie α δ) → List (α × Trie α δ)
  | [], e, g => [(e, g emptyTrie)]
  | (a, c) :: rest, e, g =>
    if a < e then (a, c) :: updChild rest e g
    else if a = e then (a, g c) :: rest
    else (e, g emptyTrie) :: (a, c) :: rest

/-- Embedding of `insert_key` (trie.hpp lines 116-128) composed with an update `f` of
the data whose reference it returns: walk the key, creating one node per element via
`insert_node`, then apply `f` to the final node's data.  `insert(key, data)`
(lines 130-137) is `insertW t k (fun _ => data)`; `operator[]` (lines 163-165) is
`insertW t k id` together with reading the final node's data. -/
def insertW [LinearOrder α] [Inhabited δ] : Trie α δ → List α → (δ → δ) → Trie α δ
  | t, [], f => .mk (f t.data) t.nodes
  | t, e :: rest, f => .mk t.data (updChild t.nodes e (fun c => insertW c rest f))

/-- Embedding of the functor overload `insert(first, last, func)` (trie.hpp lines
146-159): `func` is applied to the data of the current node and then, walking or
creating one edge per key element, to the data of every node along the key's path. -/
def insertUpd [LinearOrder α] [Inhabited δ] : Trie α δ → List α → (δ → δ) → Trie α δ
  | t, [], f => .mk (f t.data) t.nodes
  | t, e :: rest, f => .mk (f t.data) (updChild t.nodes e (fun c => insertUpd c rest f))

/-- Embedding of `TrieIterator::insert` (trie_iterator.hpp lines 114-125): the code
pushes `insert_node(*key.begin())`, then loops again from `key.begin()`, so the
first key element is inserted twice (once below the root and once below itself)
before the remaining elements follow; finally the reached node's data is assigned.
The created path is therefore `k₀ k₀ k₁ … kₙ₋₁`.  An empty key dereferences
`key.begin() == key.end()` in the C++ (undefined behaviour); it is embedded as a
no-op. -/
def iterInsert [LinearOrder α] [Inhabited δ] : Trie α δ → List α → δ → Trie α δ
  | t, [], _ => t
  | t, e :: rest, d => insertW t (e :: e :: rest) (fun _ => d)

/-- Follow a key sequence edge by edge from a node; `some` exactly when every element
can be consumed along an existing edge.  This is the walk shared by `match` and the
prefix structure of the trie. -/
def sub? [LinearOrder α] : Trie α δ → List α → Option (Trie α δ)
  | t, [] => some t
  | t, e :: rest =>
    match nfind? t.nodes e with
    | some c => sub? c rest
    | none => none

/-- Data stored at the node reached by a key, when the whole key can be consumed. -/
def dataAt? [LinearOrder α] (t : Trie α δ) (k : List α) : Option δ :=
  (sub? t k).map Trie.data

/-- Embedding of `match(first, last)` (trie.hpp lines 181-192): `(true, _data)` when
the sequence is exhausted; otherwise look up the next element with `nlower_bound`,
recurse into the child on a hit, and return `(false, _data)` of the current node on
a miss. -/
def matchFn [LinearOrder α] : Trie α δ → List α → Bool × δ
  | t, [] => (true, t.data)
  | t, e :: rest =>
    match nfind? t.nodes e with
    | some c => matchFn c rest
    | none => (false, t.data)

/-- The prefix of the key actually consumed by the greedy walk of `match`: elements
are consumed while an edge for them exists. -/
def matchedPre [LinearOrder α] : Trie α δ → List α → List α
  | _, [] => []
  | t, e :: rest =>
    match nfind? t.nodes e with
    | some c => e :: matchedPre c rest
    | none => []

/-- Data at the node reached by a key that is known to be consumable (falls back to
the root's data, a case the development never hits for `matchedPre`). -/
def stopData [LinearOrder α] (t : Trie α δ) (k : List α) : δ :=
  match sub? t k with
  | some s => s.data
  | none => t.data

/-- Embedding of `compare` (trie.hpp lines 249-264) driven by `each_elem` (lines
198-210).  The functor captures `score` and the pattern iterator by value and is
itself passed by value into each recursive `each_elem` call, so score and pattern
position are per-path state, copied to every child; the calls to `result` go
through a captured reference and are collected here as an emission list in
traversal order.  `i` is the pattern position; dereferencing the pattern iterator
is total here, `none` signalling the out-of-bounds `*first` of the C++ (which is
undefined behaviour there).  Per node the functor computes
`score_function(score, element, *first++)` with `element` the trie element and
`*first` the pattern element, emits `(score, data)` and cuts the walk when the
pattern is exhausted, and otherwise descends. -/
def cmpNodes {σ β : Type} [LinearOrder α] (step : σ → α → β → σ) (pat : List β) :
    List (α × Trie α δ) → σ → Nat → Option (List (σ × δ))
  | [], _, _ => some []
  | (e, .mk d cns) :: rest, s, i =>
    match pat[i]? with
    | none => none
    | some p =>
      let s' := step s e p
      let here? := if i + 1 = pat.length then some [(s', d)] else cmpNodes step pat cns s' (i + 1)
      match here?, cmpNodes step pat rest s i with
      | some h, some tl => some (h ++ tl)
      | _, _ => none

/-- Emissions of the top-level `compare(trie, pattern, score_function, result)`
call: the traversal starts at the trie's root children with score
`score_function.init()` and pattern position 0. -/
def compareRun {σ β : Type} [LinearOrder α] (t : Trie α δ) (pat : List β)
    (step : σ → α → β → σ) (init : σ) : Option (List (σ × δ)) :=
  cmpNodes step pat t.nodes init 0

/-- Embedding of `OverlapScore` (score_function.hpp): `init()` is 0,
`operator()(val, lhs, rhs)` is `val + (lhs == rhs ? 1 : 0)`. -/
def overlapStep [DecidableEq α] (v : Int) (l r : α) : Int :=
  v + (if l = r then 1 else 0)

/-- Label-frequency map of the KNN trie, `std::map<Label, int>`: an association
list sorted ascending by label. -/
abbrev LF (L : Type) : Type := List (L × Int)

/-- Embedding of `labels[l] += n` on a `std::map<Label, int>` (`operator[]`
inserts the label with a default-constructed count before the addition). -/
def mapAdd {L : Type} [LinearOrder L] : LF L → L → Int → LF L
  | [], lab, n => [(lab, n)]
  | (a, m) :: rest, lab, n =>
    if a < lab then (a, m) :: mapAdd rest lab n
    else if a = lab then (a, m + n) :: rest
    else (lab, n) :: (a, m) :: rest

/-- Embedding of `KNNTrie::majority_vote` (knn_trie.hpp lines 45-58): a
default-constructed label on an empty map, otherwise the first label in map order
whose count is not exceeded by any later count (`>` replaces the running best). -/
def majorityVote {L : Type} [Inhabited L] : LF L → L
  | [] => default
  | x :: rest => (rest.foldl (fun best p => if p.2 > best.2 then p else best) x).1

/-- Embedding of `KNNTrie::learn` (knn_trie.hpp lines 60-62):
`++_trie[features][label]`. -/
def learn {L : Type} [LinearOrder α] [LinearOrder L] (t : Trie α (LF L))
    (features : List α) (lab : L) : Trie α (LF L) :=
  insertW t features (fun lf => mapAdd lf lab 1)

/-- Embedding of single-best `KNNTrie::classify(features)` (knn_trie.hpp lines
64-76): fold the emissions of `compare` with `OverlapScore`, starting from score 0
and an empty map, replacing the running best only on a strictly greater score, and
take the majority vote; `none` when `compare` dereferences the pattern out of
bounds. -/
def classify1 {L : Type} [LinearOrder α] [Inhabited L] (t : Trie α (LF L))
    (features : List α) : Option L :=
  (compareRun t features overlapStep 0).map (fun ems =>
    majorityVote (ems.foldl (fun acc sl => if sl.1 > acc.1 then sl else acc) (0, [])).2)

/-- Strict-weak-order used by `std::set<std::pair<OverlapScore::type, LabelFrequencies>>`
on the map component: `std::map::operator<` is a lexicographic comparison of the
(label, count) pairs, themselves compared lexicographically. -/
def lfLtB {L : Type} [LinearOrder L] : LF L → LF L → Bool
  | [], [] => false
  | [], _ :: _ => true
  | _ :: _, [] => false
  | x :: xs, y :: ys =>
    if x.1 < y.1 then true
    else if y.1 < x.1 then false
    else if x.2 < y.2 then true
    else if y.2 < x.2 then false
    else lfLtB xs ys

/-- Comparison of the `std::set` entries `(score, label-frequency map)`:
`std::pair::operator<`, score first, then the map order. -/
def entryLtB {L : Type} [LinearOrder L] (a b : Int × LF L) : Bool :=
  if a.1 < b.1 then true
  else if b.1 < a.1 then false
  else lfLtB a.2 b.2

/-- Ordered insertion into the sorted duplicate-free list embedding the
`std::set`: a no-op when an equivalent entry is present. -/
def setInsert {E : Type} (lt : E → E → Bool) (x : E) : List E → List E
  | [] => [x]
  | y :: rest =>
    if lt x y then x :: y :: rest
    else if lt y x then y :: setInsert lt x rest
    else y :: rest

/-- Embedding of `KBest::store_if_better` (knn_trie.hpp lines 86-98): `lowest` is
`begin()` of the set; an empty set always takes the candidate, otherwise the
candidate is inserted only when its score strictly exceeds the lowest retained
score, and when the set then holds more than `k` entries the element `lowest`
(the old `begin()`) is erased. -/
def storeIfBetter {L : Type} [LinearOrder L] [DecidableEq L] (k : Nat)
    (best : List (Int × LF L)) (s : Int) (l : LF L) : List (Int × LF L) :=
  match best with
  | [] => setInsert entryLtB (s, l) []
  | lowest :: _ =>
    let b1 := if s > lowest.1 then setInsert entryLtB (s, l) best else best
    if k < b1.length then b1.erase lowest else b1

/-- Embedding of `KBest::label_frequencies` (knn_trie.hpp lines 101-113): sum the
retained maps' counts into one label-frequency map (the debug `std::cout` line has
no effect on the result). -/
def labelFreqSum {L : Type} [LinearOrder L] (best : List (Int × LF L)) : LF L :=
  best.foldl (fun acc e => e.2.foldl (fun a p => mapAdd a p.1 p.2) acc) []

/-- Embedding of k-best `KNNTrie::classify(features, k)` (knn_trie.hpp lines
78-122): feed every emission of `compare` to `store_if_better`, then take the
majority vote of the summed retained maps. -/
def classify2 {L : Type} [LinearOrder α] [LinearOrder L] [DecidableEq L] [Inhabited L]
    (t : Trie α (LF L)) (features : List α) (k : Nat) : Option L :=
  (compareRun t features overlapStep 0).map (fun ems =>
    majorityVote (labelFreqSum (ems.foldl (fun b sl => storeIfBetter k b sl.1 sl.2) [])))

/-- Claim-side definition for C5, following the spec's words: the retained entries
are the `k` best-scoring ones among all candidates, as a set of unique
`(score, map)` entries ordered by score then map; the claim's classify is then the
majority vote of their summed counts. -/
def kBestSpec {L : Type} [LinearOrder L] (k : Nat) (ems : List (Int × LF L)) :
    List (Int × LF L) :=
  let s := ems.foldl (fun acc e => setInsert entryLtB e acc) []
  s.drop (s.length - k)

/-
TrieIterator (trie_iterator.hpp).  The iterator state is `_path`, a stack of
`node_iterator`s: entry number i of the stack is an iterator into the `_nodes`
vector of the node reached by the entries below it (the bottom entry indexes the
root's vector).  A `node_iterator` is embedded as the `Nat` index it points at,
`nend()` being the vector's length.  The stack is embedded as a `List Nat` whose
HEAD is the TOP of the stack (the deque's back), so the root-first index path of
the pointed-to node is the list's reverse.  `begin()` is the empty stack
(`at_begin`, trie_iterator.hpp line 136) and `end()` is the one-entry stack
holding the root's `nend()` (lines 87-89, 140-142).
-/

/-- Follow a root-first list of child indices from a node; `some` exactly when
every index is in range. -/
def follow : Trie α δ → List Nat → Option (Trie α δ)
  | t, [] => some t
  | t, i :: is =>
    match t.nodes[i]? with
    | some p => follow p.2 is
    | none => none

/-- The `end()` cursor: the stack holding only the root's `nend()`. -/
def endCur (t : Trie α δ) : List Nat := [t.nodes.length]

/-- Embedding of the pop-and-advance loop of `operator++` (trie_iterator.hpp lines
172-181): after popping the leaf's iterator and incrementing it, iterators that
reached their container's `nend()` are popped and incremented in turn; the final
iterator is pushed (possibly the root's `nend()`, giving the End state). -/
def popUp (t : Trie α δ) : Nat → List Nat → List Nat
  | it, [] => [it]
  | it, j :: rs =>
    match follow t (j :: rs).reverse with
    | some container =>
      if it = container.nodes.length then popUp t (j + 1) rs else it :: j :: rs
    | none => it :: j :: rs

/-- Embedding of the descend loop of `operator--` (trie_iterator.hpp lines
202-206): starting from the node the decremented iterator points to, keep pushing
the last child's iterator (`nend()` decremented once) until a leaf is reached.
The first argument is that pointed-to node. -/
def descend : Trie α δ → List Nat → List Nat
  | .mk _ [], c => c
  | .mk _ (n :: ns), c =>
    descend ((n :: ns).getLast (by simp)).2 (((n :: ns).length - 1) :: c)
termination_by t _ => sizeOf t
decreasing_by
  have h1 := List.sizeOf_lt_of_mem (List.getLast_mem (l := n :: ns) (by simp))
  simp only [Prod.mk.sizeOf_spec] at *
  cases hL : (n :: ns).getLast (by simp) with
  | mk a c =>
    simp [hL] at h1 ⊢
    omega

/-- Embedding of `TrieIterator::operator++` (trie_iterator.hpp lines 167-190).
From `at_begin` the root's `nbegin()` (index 0) is pushed; at `at_end` nothing
happens; otherwise a leaf starts the pop-and-advance loop and an inner node gets
its `nbegin()` pushed.  An invalid cursor (out-of-range index, undefined behaviour
in the C++) is returned unchanged. -/
def incr (t : Trie α δ) (c : List Nat) : List Nat :=
  match c with
  | [] => [0]
  | i :: rest =>
    if rest = [] ∧ i = t.nodes.length then i :: rest
    else
      match follow t (i :: rest).reverse with
      | some node =>
        if node.nodes.isEmpty then popUp t (i + 1) rest else 0 :: i :: rest
      | none => i :: rest

/-- Embedding of `TrieIterator::operator--` (trie_iterator.hpp lines 192-211).
At `at_begin` nothing happens; otherwise the top iterator is popped, and when it
is not its container's `nbegin()` (index 0) it is decremented, pushed back and the
descend loop runs from the node it points to.  An invalid cursor is returned with
the top merely decremented (undefined behaviour in the C++). -/
def decr (t : Trie α δ) (c : List Nat) : List Nat :=
  match c with
  | [] => []
  | i :: rest =>
    if i = 0 then rest
    else
      match follow t ((i - 1) :: rest).reverse with
      | some node => descend node ((i - 1) :: rest)
      | none => (i - 1) :: rest

/-- Number of nodes of the trie (the root not counted): the number of Positioned
states of the pre-order walk. -/
def countList : List (α × Trie α δ) → Nat
  | [] => 0
  | (_, .mk _ cns) :: rest => 1 + countList cns + countList rest

/-- A cursor is valid when it is `begin()`, `end()`, or positioned on a node
(every stacked iterator in range and pointing at a child). -/
def ValidCur (t : Trie α δ) (c : List Nat) : Prop :=
  c = [] ∨ c = endCur t ∨ (follow t c.reverse).isSome

/-- The structural invariant of the `_nodes` vectors (trie.hpp design): at every
node the vector is strictly ascending in its element component — hence free of
duplicate elements — which is what `nlower_bound`'s binary search relies on. -/
inductive Sorted [LinearOrder α] : Trie α δ → Prop where
  | mk {d : δ} {ns : List (α × Trie α δ)}
      (hord : List.Pairwise (fun p q : α × Trie α δ => p.1 < q.1) ns)
      (hsub : ∀ p ∈ ns, Sorted p.2) : Sorted (Trie.mk d ns)

end TrieCpp

namespace TrieCpp

variable {α : Type} {δ : Type}

@[simp] theorem Trie.data_mk (d : δ) (ns : List (α × Trie α δ)) : (Trie.mk d ns).data = d := rfl

@[simp] theorem Trie.nodes_mk (d : δ) (ns : List (α × Trie α δ)) : (Trie.mk d ns).nodes = ns := rfl

section InsertLemmas

variable [LinearOrder α] [Inhabited δ]


/-- Looking up the inserted element after `insert_node` plus update finds the
updated child (the pre-existing one, or a fresh default node). -/
theorem nfind?_updChild (ns : List (α × Trie α δ)) (e : α) (g : Trie α δ → Trie α δ) :
    nfind? (updChild ns e g) e = some (g ((nfind? ns e).getD emptyTrie)) := by
  induction ns with
  | nil => simp [updChild, nfind?]
  | cons hd rest ih =>
    obtain ⟨a, c⟩ := hd
    by_cases hlt : a < e
    · simp [updChild, nfind?, hlt, ih]
    · by_cases heq : a = e
      · subst heq
        simp [updChild, nfind?, hlt]
      · simp [updChild, nfind?, hlt, heq]

/-- Looking up any other element is unaffected by `insert_node` plus update. -/
theorem nfind?_updChild_ne (ns : List (α × Trie α δ)) (e e' : α) (g : Trie α δ → Trie α δ)
    (h : e' ≠ e) : nfind? (updChild ns e g) e' = nfind? ns e' := by
  induction ns with
  | nil =>
    by_cases hlt : e < e'
    · simp [updChild, nfind?, hlt]
    · simp [updChild, nfind?, hlt, (Ne.symm h)]
  | cons hd rest ih =>
    obtain ⟨a, c⟩ := hd
    by_cases hlt : a < e
    · simp [updChild, nfind?, hlt, ih]
    · by_cases heq : a = e
      · subst heq
        simp [updChild, nfind?, hlt, Ne.symm h]
      · have hea : e < a := lt_of_le_of_ne (le_of_not_lt hlt) (Ne.symm heq)
        by_cases hlt' : e < e'
        · simp [updChild, nfind?, hlt, heq, hlt']
        · have h1 : ¬ a < e' := fun hc => hlt' (lt_trans hea hc)
          have h2 : a ≠ e' := fun hc => hlt' (hc ▸ hea)
          simp [updChild, nfind?, hlt, heq, hlt', Ne.symm h, h1, h2]

/-- An empty trie stores `default` at the empty key and nothing elsewhere. -/
theorem dataAt?_emptyTrie (k : List α) :
    dataAt? (emptyTrie : Trie α δ) k = if k = [] then some default else none := by
  cases k with
  | nil => simp [dataAt?, sub?, emptyTrie]
  | cons e rest => simp [dataAt?, sub?, emptyTrie, nfind?]

/-- Unfolding `sub?` through the trie root on a nonempty key. -/
theorem sub?_cons (t : Trie α δ) (e : α) (rest : List α) :
    sub? t (e :: rest)
      = match nfind? t.nodes e with
        | some c => sub? c rest
        | none => none := by
  cases t
  rfl

/-- The data written by `insert_key` composed with `f`: at the full key it is `f`
of the previous data there, default when the node is new. -/
theorem dataAt?_insertW_self (t : Trie α δ) (k : List α) (f : δ → δ) :
    dataAt? (insertW t k f) k = some (f ((dataAt? t k).getD default)) := by
  induction k generalizing t with
  | nil => cases t with
    | mk d ns => simp [insertW, dataAt?, sub?]
  | cons e rest ih =>
    cases t with
    | mk d ns =>
      have hfind := nfind?_updChild ns e (fun c => insertW c rest f)
      have key : dataAt? (insertW (Trie.mk d ns) (e :: rest) f) (e :: rest)
          = dataAt? (insertW ((nfind? ns e).getD emptyTrie) rest f) rest := by
        simp only [dataAt?, insertW, sub?, Trie.nodes_mk, hfind]
      rw [key, ih]
      cases hns : nfind? ns e with
      | some c => simp [dataAt?, sub?, hns]
      | none =>
        simp only [dataAt?, sub?, Trie.nodes_mk, hns, Option.getD_none, Option.map_none']
        cases rest with
        | nil => simp [dataAt?, sub?, emptyTrie]
        | cons z zs => simp [dataAt?, sub?, emptyTrie, nfind?]

/-- Frame property of `insert_key` plus final-data update: the data visible at any
key that is not a prefix of the inserted key (incomparable keys, and strict
extensions of the inserted key) is untouched, absence included. -/
theorem dataAt?_insertW_frame (l : List α) (t : Trie α δ) (k : List α) (f : δ → δ)
    (h : ¬ l <+: k) : dataAt? (insertW t k f) l = dataAt? t l := by
  induction l generalizing t k with
  | nil => exact absurd List.nil_prefix h
  | cons x l' ih =>
    cases t with
    | mk d ns =>
      cases k with
      | nil =>
        simp [insertW, dataAt?, sub?]
      | cons y k' =>
        by_cases hxy : x = y
        · subst hxy
          have h' : ¬ l' <+: k' := by
            intro hc
            exact h (List.cons_prefix_cons.mpr ⟨rfl, hc⟩)
          have hfind := nfind?_updChild ns x (fun c => insertW c k' f)
          simp only [insertW, dataAt?, sub?, Trie.nodes_mk, hfind]
          cases hns : nfind? ns x with
          | some c =>
            have := ih c k' h'
            simp [dataAt?] at this
            simpa [dataAt?] using this
          | none =>
            have := ih (emptyTrie : Trie α δ) k' h'
            simp only [Option.getD_none]
            have hnone : dataAt? (emptyTrie : Trie α δ) l' = none := by
              cases l' with
              | nil => exact absurd List.nil_prefix h'
              | cons z zs => simp [dataAt?, sub?, emptyTrie, nfind?]
            rw [hnone] at this
            simp [dataAt?] at this ⊢
            simp [this]
        · have hfind := nfind?_updChild_ne ns y x (fun c => insertW c k' f) hxy
          simp only [insertW, dataAt?, sub?, Trie.nodes_mk, hfind]

/-- Frame property of `insert(key, value)` at the proper prefixes of the key: the
data there is kept when the node pre-existed and is default-constructed when the
node was just created. -/
theorem dataAt?_insertW_proper (p : List α) (t : Trie α δ) (k : List α) (f : δ → δ)
    (h1 : p <+: k) (h2 : p ≠ k) :
    dataAt? (insertW t k f) p = some ((dataAt? t p).getD default) := by
  induction p generalizing t k with
  | nil =>
    cases k with
    | nil => exact absurd rfl h2
    | cons y k' =>
      cases t with
      | mk d ns => simp [insertW, dataAt?, sub?]
  | cons x p' ih =>
    cases k with
    | nil => exact absurd (List.prefix_nil.mp h1) (by simp)
    | cons y k' =>
      cases t with
      | mk d ns =>
        obtain ⟨hxy, h1'⟩ : x = y ∧ p' <+: k' := by
          obtain ⟨s, hs⟩ := h1
          injection hs with hx hrest
          exact ⟨hx, ⟨s, hrest⟩⟩
        subst hxy
        have h2' : p' ≠ k' := by
          intro hc
          exact h2 (by rw [hc])
        have hfind := nfind?_updChild ns x (fun c => insertW c k' f)
        simp only [insertW, dataAt?, sub?, Trie.nodes_mk, hfind]
        cases hns : nfind? ns x with
        | some c =>
          have := ih c k' h1' h2'
          simp [dataAt?] at this
          simpa [dataAt?] using this
        | none =>
          have := ih (emptyTrie : Trie α δ) k' h1' h2'
          simp only [Option.getD_none]
          have hemp : (dataAt? (emptyTrie : Trie α δ) p').getD default = default := by
            cases p' with
            | nil => simp [dataAt?, sub?, emptyTrie]
            | cons z zs => simp [dataAt?, sub?, emptyTrie, nfind?]
          rw [hemp] at this
          simp [dataAt?] at this ⊢
          simp [this]

/-- Every node on the inserted key's path — the root and the node of each prefix,
the full key included — has its data replaced by `func` of its previous data
(default for freshly created nodes) by the functor insert. -/
theorem dataAt?_insertUpd_path (p : List α) (t : Trie α δ) (k : List α) (f : δ → δ)
    (h : p <+: k) :
    dataAt? (insertUpd t k f) p = some (f ((dataAt? t p).getD default)) := by
  induction p generalizing t k with
  | nil =>
    cases t with
    | mk d ns =>
      cases k with
      | nil => simp [insertUpd, dataAt?, sub?]
      | cons y k' => simp [insertUpd, dataAt?, sub?]
  | cons x p' ih =>
    cases k with
    | nil => exact absurd (List.prefix_nil.mp h) (by simp)
    | cons y k' =>
      cases t with
      | mk d ns =>
        obtain ⟨hxy, h'⟩ : x = y ∧ p' <+: k' := by
          obtain ⟨s, hs⟩ := h
          injection hs with hx hrest
          exact ⟨hx, ⟨s, hrest⟩⟩
        subst hxy
        have hfind := nfind?_updChild ns x (fun c => insertUpd c k' f)
        simp only [insertUpd, dataAt?, sub?, Trie.nodes_mk, hfind]
        cases hns : nfind? ns x with
        | some c =>
          have := ih c k' h'
          simp [dataAt?] at this
          simpa [dataAt?] using this
        | none =>
          have := ih (emptyTrie : Trie α δ) k' h'
          simp only [Option.getD_none]
          have hemp : (dataAt? (emptyTrie : Trie α δ) p').getD default = default := by
            cases p' with
            | nil => simp [dataAt?, sub?, emptyTrie]
            | cons z zs => simp [dataAt?, sub?, emptyTrie, nfind?]
          rw [hemp] at this
          simp [dataAt?] at this ⊢
          simp [this]

/-- Nodes off the inserted key's path are untouched by the functor insert. -/
theorem dataAt?_insertUpd_frame (l : List α) (t : Trie α δ) (k : List α) (f : δ → δ)
    (h : ¬ l <+: k) : dataAt? (insertUpd t k f) l = dataAt? t l := by
  induction l generalizing t k with
  | nil => exact absurd List.nil_prefix h
  | cons x l' ih =>
    cases t with
    | mk d ns =>
      cases k with
      | nil =>
        simp [insertUpd, dataAt?, sub?]
      | cons y k' =>
        by_cases hxy : x = y
        · subst hxy
          have h' : ¬ l' <+: k' := by
            intro hc
            exact h (List.cons_prefix_cons.mpr ⟨rfl, hc⟩)
          have hfind := nfind?_updChild ns x (fun c => insertUpd c k' f)
          simp only [insertUpd, dataAt?, sub?, Trie.nodes_mk, hfind]
          cases hns : nfind? ns x with
          | some c =>
            have := ih c k' h'
            simp [dataAt?] at this
            simpa [dataAt?] using this
          | none =>
            have := ih (emptyTrie : Trie α δ) k' h'
            simp only [Option.getD_none]
            have hnone : dataAt? (emptyTrie : Trie α δ) l' = none := by
              cases l' with
              | nil => exact absurd List.nil_prefix h'
              | cons z zs => simp [dataAt?, sub?, emptyTrie, nfind?]
            rw [hnone] at this
            simp [dataAt?] at this ⊢
            simp [this]
        · have hfind := nfind?_updChild_ne ns y x (fun c => insertUpd c k' f) hxy
          simp only [insertUpd, dataAt?, sub?, Trie.nodes_mk, hfind]

end InsertLemmas

end TrieCpp

namespace TrieCpp

variable {α : Type} {δ : Type}

section MatchLemmas

variable [LinearOrder α] [Inhabited δ]

/-- The prefix consumed by the greedy walk of `match` is a prefix of the query. -/
theorem matchedPre_isPre (t : Trie α δ) (S : List α) : matchedPre t S <+: S := by
  induction S generalizing t with
  | nil => simp [matchedPre]
  | cons e rest ih =>
    cases t with
    | mk d ns =>
      cases hns : nfind? ns e with
      | some c =>
        simp only [matchedPre, Trie.nodes_mk, hns]
        exact List.cons_prefix_cons.mpr ⟨rfl, ih c⟩
      | none =>
        simp [matchedPre, hns]

/-- The node of the consumed prefix always exists. -/
theorem sub?_matchedPre (t : Trie α δ) (S : List α) :
    (sub? t (matchedPre t S)).isSome := by
  induction S generalizing t with
  | nil => simp [matchedPre, sub?]
  | cons e rest ih =>
    cases t with
    | mk d ns =>
      cases hns : nfind? ns e with
      | some c =>
        simp only [matchedPre, Trie.nodes_mk, hns, sub?]
        exact ih c
      | none => simp [matchedPre, hns, sub?]

/-- When the whole query is consumable the greedy walk consumes all of it. -/
theorem matchedPre_of_isSome (t : Trie α δ) (S : List α) (h : (sub? t S).isSome) :
    matchedPre t S = S := by
  induction S generalizing t with
  | nil => simp [matchedPre]
  | cons e rest ih =>
    cases t with
    | mk d ns =>
      cases hns : nfind? ns e with
      | some c =>
        simp only [sub?, Trie.nodes_mk, hns] at h
        simp only [matchedPre, Trie.nodes_mk, hns]
        rw [ih c h]
      | none => simp [sub?, hns] at h

/-- The greedy walk consumes the longest consumable prefix: no consumable prefix of
the query is longer. -/
theorem matchedPre_longest (t : Trie α δ) (S P : List α) (h1 : P <+: S)
    (h2 : (sub? t P).isSome) : P.length ≤ (matchedPre t S).length := by
  induction S generalizing t P with
  | nil =>
    rw [List.prefix_nil.mp h1]
    simp
  | cons e rest ih =>
    cases t with
    | mk d ns =>
      cases P with
      | nil => simp
      | cons x P' =>
        obtain ⟨hx, h1'⟩ := List.cons_prefix_cons.mp h1
        subst hx
        cases hns : nfind? ns x with
        | some c =>
          simp only [sub?, Trie.nodes_mk, hns] at h2
          simp only [matchedPre, Trie.nodes_mk, hns, List.length_cons]
          exact Nat.succ_le_succ (ih c P' h1' h2)
        | none => simp [sub?, hns] at h2

/-- Characterization of `match`: the flag states whether the whole query is
consumable and the returned data is that of the node of the consumed prefix. -/
theorem matchFn_eq (t : Trie α δ) (S : List α) :
    matchFn t S = ((sub? t S).isSome, stopData t (matchedPre t S)) := by
  induction S generalizing t with
  | nil => simp [matchFn, sub?, matchedPre, stopData]
  | cons e rest ih =>
    cases t with
    | mk d ns =>
      cases hns : nfind? ns e with
      | some c =>
        simp only [matchFn, Trie.nodes_mk, hns, sub?, matchedPre]
        rw [ih c]
        have hsub := sub?_matchedPre c rest
        cases hmp : sub? c (matchedPre c rest) with
        | some s =>
          simp only [stopData, sub?, Trie.nodes_mk, hns, hmp]
        | none =>
          rw [hmp] at hsub
          simp at hsub
      | none =>
        simp [matchFn, hns, sub?, matchedPre, stopData]

/-- Walking an existing path and continuing equals walking the continuation from
the reached node. -/
theorem sub?_append_of_sub? (t : Trie α δ) (K S' : List α) (s : Trie α δ)
    (h : sub? t K = some s) : sub? t (K ++ S') = sub? s S' := by
  induction K generalizing t with
  | nil =>
    simp [sub?] at h
    subst h
    simp
  | cons e K' ih =>
    cases t with
    | mk d ns =>
      cases hns : nfind? ns e with
      | some c =>
        simp only [sub?, Trie.nodes_mk, hns] at h
        simp only [List.cons_append, sub?, Trie.nodes_mk, hns]
        exact ih c h
      | none => simp [sub?, hns] at h

/-- The greedy walk along a key whose node exists consumes that key and continues
greedily from its node. -/
theorem matchedPre_append_of_sub? (t : Trie α δ) (K S' : List α) (s : Trie α δ)
    (h : sub? t K = some s) : matchedPre t (K ++ S') = K ++ matchedPre s S' := by
  induction K generalizing t with
  | nil =>
    simp [sub?] at h
    subst h
    simp
  | cons e K' ih =>
    cases t with
    | mk d ns =>
      cases hns : nfind? ns e with
      | some c =>
        simp only [sub?, Trie.nodes_mk, hns] at h
        simp only [List.cons_append, matchedPre, Trie.nodes_mk, hns]
        exact congrArg (List.cons e) (ih c h)
      | none => simp [sub?, hns] at h

end MatchLemmas

end TrieCpp

namespace TrieCpp

variable {α : Type} {δ : Type}

section SortedLemmas

variable [LinearOrder α] [Inhabited δ]

/-- Entries after `insert_node` plus update: every entry is an old one, or carries
the inserted element with the update applied to an old child or a fresh node. -/
theorem mem_updChild {ns : List (α × Trie α δ)} {e : α} {g : Trie α δ → Trie α δ}
    {p : α × Trie α δ} (h : p ∈ updChild ns e g) :
    p ∈ ns ∨ ∃ c, p = (e, g c) ∧ ((e, c) ∈ ns ∨ c = emptyTrie) := by
  induction ns with
  | nil =>
    simp [updChild] at h
    exact Or.inr ⟨emptyTrie, by simp [h], Or.inr rfl⟩
  | cons hd rest ih =>
    obtain ⟨a, cc⟩ := hd
    by_cases hlt : a < e
    · simp only [updChild, if_pos hlt, List.mem_cons] at h
      rcases h with h | h
      · exact Or.inl (by simp [h])
      · rcases ih h with h' | ⟨c, hc, hm⟩
        · exact Or.inl (List.mem_cons_of_mem _ h')
        · refine Or.inr ⟨c, hc, ?_⟩
          rcases hm with hm | hm
          · exact Or.inl (List.mem_cons_of_mem _ hm)
          · exact Or.inr hm
    · by_cases heq : a = e
      · subst heq
        simp only [updChild, if_neg hlt, eq_self_iff_true, if_true, List.mem_cons] at h
        rcases h with h1 | h1
        · exact Or.inr ⟨cc, by simp [h1], Or.inl (List.mem_cons_self _ _)⟩
        · exact Or.inl (List.mem_cons_of_mem _ h1)
      · simp only [updChild, if_neg hlt, if_neg heq, List.mem_cons] at h
        rcases h with h | h | h
        · exact Or.inr ⟨emptyTrie, by simp [h], Or.inr rfl⟩
        · exact Or.inl (by simp [h])
        · exact Or.inl (List.mem_cons_of_mem _ h)

/-- Ordered insertion via `nlower_bound` keeps the vector strictly ascending in
the element component. -/
theorem pairwise_updChild {ns : List (α × Trie α δ)} (e : α) (g : Trie α δ → Trie α δ)
    (h : List.Pairwise (fun p q : α × Trie α δ => p.1 < q.1) ns) :
    List.Pairwise (fun p q : α × Trie α δ => p.1 < q.1) (updChild ns e g) := by
  induction ns with
  | nil => simp [updChild]
  | cons hd rest ih =>
    obtain ⟨a, cc⟩ := hd
    rw [List.pairwise_cons] at h
    obtain ⟨ha, hrest⟩ := h
    by_cases hlt : a < e
    · simp only [updChild, if_pos hlt]
      rw [List.pairwise_cons]
      refine ⟨?_, ih hrest⟩
      intro q hq
      rcases mem_updChild hq with hq' | ⟨c, hc, _⟩
      · exact ha q hq'
      · rw [hc]
        exact hlt
    · by_cases heq : a = e
      · subst heq
        simp only [updChild, if_neg hlt, eq_self_iff_true, if_true]
        rw [List.pairwise_cons]
        exact ⟨fun q hq => ha q hq, hrest⟩
      · have hea : e < a := lt_of_le_of_ne (le_of_not_lt hlt) (Ne.symm heq)
        simp only [updChild, if_neg hlt, if_neg heq]
        rw [List.pairwise_cons]
        refine ⟨?_, by rw [List.pairwise_cons]; exact ⟨ha, hrest⟩⟩
        intro q hq
        rcases List.mem_cons.mp hq with hq' | hq'
        · rw [hq']
          exact hea
        · exact lt_trans hea (ha q hq')

/-- A default-constructed node satisfies the invariant. -/
theorem sorted_emptyTrie : Sorted (emptyTrie : Trie α δ) := by
  refine Sorted.mk ?_ ?_
  · simp
  · simp

/-- The invariant is preserved by `insert_key` with final-data update, hence by
`insert(key, value)` and by `operator[]`. -/
theorem sorted_insertW (t : Trie α δ) (k : List α) (f : δ → δ) (h : Sorted t) :
    Sorted (insertW t k f) := by
  induction k generalizing t with
  | nil =>
    cases h with
    | mk hord hsub => exact Sorted.mk hord hsub
  | cons e rest ih =>
    cases h with
    | mk hord hsub =>
      refine Sorted.mk (pairwise_updChild e _ hord) ?_
      intro p hp
      rcases mem_updChild hp with hp' | ⟨c, hc, hm⟩
      · exact hsub p hp'
      · rw [hc]
        rcases hm with hm | hm
        · exact ih c (hsub _ hm)
        · rw [hm]
          exact ih _ sorted_emptyTrie

/-- The invariant is preserved by the functor insert. -/
theorem sorted_insertUpd (t : Trie α δ) (k : List α) (f : δ → δ) (h : Sorted t) :
    Sorted (insertUpd t k f) := by
  induction k generalizing t with
  | nil =>
    cases h with
    | mk hord hsub => exact Sorted.mk hord hsub
  | cons e rest ih =>
    cases h with
    | mk hord hsub =>
      refine Sorted.mk (pairwise_updChild e _ hord) ?_
      intro p hp
      rcases mem_updChild hp with hp' | ⟨c, hc, hm⟩
      · exact hsub p hp'
      · rw [hc]
        rcases hm with hm | hm
        · exact ih c (hsub _ hm)
        · rw [hm]
          exact ih _ sorted_emptyTrie

/-- The invariant is preserved by the cursor insert. -/
theorem sorted_iterInsert (t : Trie α δ) (k : List α) (d : δ) (h : Sorted t) :
    Sorted (iterInsert t k d) := by
  cases k with
  | nil => exact h
  | cons e rest => exact sorted_insertW t (e :: e :: rest) (fun _ => d) h

end SortedLemmas

end TrieCpp

namespace TrieCpp

variable {α : Type} {δ : Type}

section CompareLemmas

variable {σ β : Type} [LinearOrder α]

/-- Dereferences of the pattern iterator stay in bounds as long as the pattern
position is in range: the walk emits and turns back exactly when the pattern gets
exhausted, so the position never reaches the pattern's length at a dereference. -/
theorem cmpNodes_isSome_of_lt (step : σ → α → β → σ) (pat : List β)
    (ns : List (α × Trie α δ)) (s : σ) (i : Nat) :
    i < pat.length → (cmpNodes step pat ns s i).isSome := by
  induction ns, s, i using cmpNodes.induct step pat with
  | case1 s i =>
    intro _
    simp [cmpNodes]
  | case2 e d cns rest s i hnone =>
    intro hlt
    rw [List.getElem?_eq_none_iff] at hnone
    omega
  | case3 e d cns rest s i p hp s' here? h tl hrest hhere ihc ihr =>
    intro hlt
    simp only [cmpNodes, hp]
    have hhere' : (if i + 1 = pat.length then some [(step s e p, d)]
        else cmpNodes step pat cns (step s e p) (i + 1)) = some h := hhere
    by_cases hlen : i + 1 = pat.length
    · rw [if_pos hlen, hrest]
      simp
    · rw [if_neg hlen] at hhere'
      rw [if_neg hlen, hhere', hrest]
      simp
  | case4 e d cns rest s i p hp s' here? hnot ihc ihr =>
    intro hlt
    exfalso
    by_cases hlen : i + 1 = pat.length
    · have h2 := ihr hlt
      cases hr : cmpNodes step pat rest s i with
      | none => rw [hr] at h2; simp at h2
      | some tl =>
        have harg : here? = some [(step s e p, d)] := by
          show (if h : i + 1 = pat.length then some [(s', d)]
              else cmpNodes step pat cns s' (i + 1)) = some [(step s e p, d)]
          rw [dif_pos hlen]
        exact hnot [(step s e p, d)] tl harg hr
    · have h1 := ihc (by omega)
      have h2 := ihr hlt
      cases hc : cmpNodes step pat cns s' (i + 1) with
      | none => rw [hc] at h1; simp at h1
      | some hh =>
        cases hr : cmpNodes step pat rest s i with
        | none => rw [hr] at h2; simp at h2
        | some tl =>
          have harg : here? = some hh := by
            show (if h : i + 1 = pat.length then some [(s', d)]
                else cmpNodes step pat cns s' (i + 1)) = some hh
            rw [dif_neg hlen]
            exact hc
          exact hnot hh tl harg hr

/-- With an empty pattern, the very first functor call on any node dereferences
the pattern iterator out of bounds. -/
theorem cmpNodes_nil_pat (step : σ → α → β → σ) (e : α) (c : Trie α δ)
    (ns : List (α × Trie α δ)) (s : σ) :
    cmpNodes step ([] : List β) ((e, c) :: ns) s 0 = none := by
  cases c
  simp [cmpNodes]

end CompareLemmas

section KnnLemmas

variable {L : Type} [LinearOrder α] [Inhabited L]

/-- The running best of single-best classify never moves off its initial state
when no candidate score strictly exceeds 0. -/
theorem foldBest_of_nonpos (ems : List (Int × LF L))
    (h : ∀ p ∈ ems, p.1 ≤ 0) :
    ems.foldl (fun acc sl => if sl.1 > acc.1 then sl else acc) ((0 : Int), ([] : LF L))
      = (0, []) := by
  induction ems with
  | nil => rfl
  | cons x xs ih =>
    have hx : ¬ x.1 > (0 : Int) := not_lt.mpr (h x (List.mem_cons_self _ _))
    simp only [List.foldl_cons, if_neg hx]
    exact ih (fun p hp => h p (List.mem_cons_of_mem _ hp))

end KnnLemmas

end TrieCpp

namespace TrieCpp

variable {α : Type} {δ : Type}

section Claims

/-- C1: for every key K and data value D, after executing `trie[K] = D` (indexed
lookup-or-insert followed by assignment), `trie[K]` returns D — the read through
`operator[]` is again `insert_key`, so the trie after the read appears in the
statement — and `trie.match(K)` returns `(true, D)`. -/
theorem claim_index_assign_retrieves [LinearOrder α] [Inhabited δ]
    (t : Trie α δ) (K : List α) (D : δ) :
    dataAt? (insertW (insertW t K (fun _ => D)) K id) K = some D ∧
    matchFn (insertW t K (fun _ => D)) K = (true, D) := by
  have h1 : dataAt? (insertW t K (fun _ => D)) K = some D := by
    rw [dataAt?_insertW_self]
  constructor
  · rw [dataAt?_insertW_self, h1]
    rfl
  · obtain ⟨s, hs, hd⟩ : ∃ s, sub? (insertW t K (fun _ => D)) K = some s ∧ s.data = D := by
      unfold dataAt? at h1
      cases hsub : sub? (insertW t K (fun _ => D)) K with
      | none => rw [hsub] at h1; simp at h1
      | some s =>
        rw [hsub] at h1
        simp at h1
        exact ⟨s, rfl, h1⟩
    rw [matchFn_eq]
    have hiss : (sub? (insertW t K (fun _ => D)) K).isSome := by rw [hs]; rfl
    rw [matchedPre_of_isSome _ _ hiss]
    simp only [stopData, hs, hd, Option.isSome_some]

/-- C7: `insert(K, V)` overwrites only the data of the final node reached by K;
the data of every intermediate (proper-prefix) node is unchanged if the node
already existed and default-constructed if newly created; data elsewhere (keys
that are not prefixes of K) is untouched; inserting with the empty key sets the
root's data to V and changes nothing else. -/
theorem claim_insert_overwrites_only_final [LinearOrder α] [Inhabited δ]
    (t : Trie α δ) (K : List α) (V : δ) :
    dataAt? (insertW t K (fun _ => V)) K = some V ∧
    (∀ P, P <+: K → P ≠ K →
      dataAt? (insertW t K (fun _ => V)) P = some ((dataAt? t P).getD default)) ∧
    (∀ l, ¬ l <+: K → dataAt? (insertW t K (fun _ => V)) l = dataAt? t l) ∧
    insertW t [] (fun _ => V) = Trie.mk V t.nodes := by
  refine ⟨?_, ?_, ?_, ?_⟩
  · rw [dataAt?_insertW_self]
  · intro P h1 h2
    exact dataAt?_insertW_proper P t K _ h1 h2
  · intro l hl
    exact dataAt?_insertW_frame l t K _ hl
  · cases t
    simp [insertW]

/-- C8: `insert(K, F)` with an update function replaces the data of every node on
the path for K — the root and the node for each prefix of K, K itself included —
with F applied to that node's previous data (default data for newly created
nodes), applying F exactly once per such node and leaving all other nodes'
data untouched. -/
theorem claim_insert_functor_bumps_path [LinearOrder α] [Inhabited δ]
    (t : Trie α δ) (K : List α) (F : δ → δ) :
    (∀ P, P <+: K →
      dataAt? (insertUpd t K F) P = some (F ((dataAt? t P).getD default))) ∧
    (∀ l, ¬ l <+: K → dataAt? (insertUpd t K F) l = dataAt? t l) := by
  constructor
  · intro P hP
    exact dataAt?_insertUpd_path P t K F hP
  · intro l hl
    exact dataAt?_insertUpd_frame l t K F hl

/-- C2: `match(S)` returns `(true, data-at-node-reached-by-S)` when every element
of S can be consumed along existing edges, and `(false, data at the node of the
longest matched prefix)` otherwise; the consumed prefix is a prefix of S, its node
exists, and no longer consumable prefix of S exists; when the whole of S is
consumable the matched node is the root only for empty S; and for a stored key K
whose node is a leaf, matching any proper extension of K yields `(false, data at
K)`. -/
theorem claim_match_longest_consumed [LinearOrder α] [Inhabited δ]
    (t : Trie α δ) (S : List α) :
    matchFn t S = ((sub? t S).isSome, stopData t (matchedPre t S)) ∧
    matchedPre t S <+: S ∧
    (sub? t (matchedPre t S)).isSome ∧
    (∀ P, P <+: S → (sub? t P).isSome → P.length ≤ (matchedPre t S).length) ∧
    ((sub? t S).isSome → matchedPre t S = S) ∧
    ((sub? t S).isSome → matchedPre t S = [] → S = []) ∧
    (∀ (K r : List α) (e : α) (s : Trie α δ), sub? t K = some s → s.nodes = [] →
      matchFn t (K ++ e :: r) = (false, s.data)) := by
  refine ⟨matchFn_eq t S, matchedPre_isPre t S, sub?_matchedPre t S, ?_, ?_, ?_, ?_⟩
  · intro P h1 h2
    exact matchedPre_longest t S P h1 h2
  · intro h
    exact matchedPre_of_isSome t S h
  · intro h hmp
    have := matchedPre_of_isSome t S h
    rw [hmp] at this
    exact this.symm
  · intro K r e s hsub hleaf
    have hmp : matchedPre t (K ++ e :: r) = K := by
      rw [matchedPre_append_of_sub? t K (e :: r) s hsub]
      cases s with
      | mk d ns =>
        simp at hleaf
        subst hleaf
        simp [matchedPre, nfind?]
    have hnone : sub? t (K ++ e :: r) = none := by
      rw [sub?_append_of_sub? t K (e :: r) s hsub]
      cases s with
      | mk d ns =>
        simp at hleaf
        subst hleaf
        simp [sub?, nfind?]
    rw [matchFn_eq, hmp, hnone]
    simp only [Option.isSome_none, stopData, hsub]

/-- C3: every node's edge vector is strictly ascending by element and free of
duplicate elements, and this invariant holds of a default-constructed trie and is
preserved by `insert_key` with any final-data update (covering `insert(key,
value)` and `operator[]`), by the update-function insert and by the cursor
insert. -/
theorem claim_edges_sorted_invariant [LinearOrder α] [Inhabited δ] :
    (∀ d : δ, Sorted (Trie.mk d ([] : List (α × Trie α δ)))) ∧
    (∀ (t : Trie α δ) (k : List α) (f : δ → δ), Sorted t → Sorted (insertW t k f)) ∧
    (∀ (t : Trie α δ) (k : List α) (f : δ → δ), Sorted t → Sorted (insertUpd t k f)) ∧
    (∀ (t : Trie α δ) (k : List α) (v : δ), Sorted t → Sorted (iterInsert t k v)) ∧
    (∀ t : Trie α δ, Sorted t →
      List.Pairwise (· < ·) (t.nodes.map Prod.fst) ∧ (t.nodes.map Prod.fst).Nodup ∧
      (∀ p ∈ t.nodes, Sorted p.2)) := by
  refine ⟨?_, sorted_insertW, sorted_insertUpd, sorted_iterInsert, ?_⟩
  · intro d
    exact Sorted.mk (by simp) (by simp)
  · intro t h
    cases h with
    | mk hord hsub =>
      have hp : List.Pairwise (· < ·) (List.map Prod.fst _) := List.pairwise_map.mpr hord
      exact ⟨hp, List.Pairwise.imp ne_of_lt hp, hsub⟩

/-- C10: along any one trie path, `compare` dereferences the pattern iterator only
at positions below the pattern's length (the walk turns back once the pattern is
exhausted), so for a non-empty pattern every dereference is in bounds and the
total embedding never takes its `none` branch; with an empty pattern and a
non-empty trie the very first dereference is out of bounds. -/
theorem claim_compare_deref_bounds {σ β : Type} [LinearOrder α]
    (step : σ → α → β → σ) (pat : List β) :
    (∀ (ns : List (α × Trie α δ)) (s : σ), pat ≠ [] → (cmpNodes step pat ns s 0).isSome) ∧
    (∀ (ns : List (α × Trie α δ)) (s : σ) (i : Nat), i < pat.length →
      (cmpNodes step pat ns s i).isSome) ∧
    (∀ (e : α) (c : Trie α δ) (ns : List (α × Trie α δ)) (s : σ),
      cmpNodes step ([] : List β) ((e, c) :: ns) s 0 = none) := by
  refine ⟨?_, ?_, ?_⟩
  · intro ns s hne
    exact cmpNodes_isSome_of_lt step pat ns s 0 (by cases pat with
      | nil => exact absurd rfl hne
      | cons x xs => simp)
  · intro ns s i h
    exact cmpNodes_isSome_of_lt step pat ns s i h
  · intro e c ns s
    exact cmpNodes_nil_pat step e c ns s

/-- C9: in single-best classify the running best starts at score 0 and is replaced
only by a strictly greater score, so when no candidate of the query's length has a
positive overlap score the label map stays empty and a default-constructed label
is returned — in particular on an empty trie — and `majority_vote` of an empty
label-frequency map is the default label. -/
theorem claim_knn_zero_never_selected {L : Type} [LinearOrder α] [LinearOrder L]
    [Inhabited L] :
    majorityVote ([] : LF L) = default ∧
    (∀ (d : LF L) (feats : List α),
      classify1 (Trie.mk d ([] : List (α × Trie α (LF L)))) feats = some default) ∧
    (∀ (t : Trie α (LF L)) (feats : List α) (ems : List (Int × LF L)),
      compareRun t feats overlapStep 0 = some ems → (∀ p ∈ ems, p.1 ≤ 0) →
      classify1 t feats = some default) := by
  refine ⟨rfl, ?_, ?_⟩
  · intro d feats
    simp [classify1, compareRun, cmpNodes, majorityVote]
  · intro t feats ems hrun hnp
    unfold classify1
    rw [hrun]
    simp only [Option.map_some']
    rw [foldBest_of_nonpos ems hnp]
    rfl

/-- C4: the fold over a path and the one-emission-per-equal-length-path behaviour
hold, but the score step receives the TRIE element in the second position and the
PATTERN element in the third (`score_function(score, element, *first++)` in
trie.hpp line 255), contradicting both the claim and the code's own comment
(trie.hpp lines 240-241): on the one-node trie holding element 1 with data 7 and
pattern [2], the asymmetric step `s + 2*x + y` yields 0 + 2*1 + 2 = 4, not the
claimed 0 + 2*2 + 1 = 5. -/
theorem claim_compare_argument_order_eval :
    compareRun (Trie.mk (0 : Nat) [((1 : Nat), Trie.mk (7 : Nat) [])]) [(2 : Nat)]
      (fun s x y => s + 2 * x + y) 0 = some [(4, 7)] ∧
    (0 + 2 * 2 + 1 : Nat) ≠ 4 := by
  constructor
  · simp [compareRun, cmpNodes]
  · decide

/-- C5: evaluation of `classify(features, k)` at a concrete learned trie.  After
learning [0,0] with label 0 once and [0,1] with label 1 twice, the candidates for
query [0,0] are (score 2, map 0↦1) and then (score 1, map 1↦2); `store_if_better`
rejects the second candidate because its score does not exceed the current lowest
even though only one of k = 2 slots is taken, so the code returns label 0, while
retaining the k best-scoring candidates as the claim states would sum the maps to
0↦1, 1↦2 and return label 1. -/
theorem claim_knn_kbest_eval :
    classify2 (learn (learn (learn (emptyTrie : Trie Nat (LF Nat)) [0, 0] 0) [0, 1] 1)
        [0, 1] 1) [0, 0] 2 = some 0 ∧
    (compareRun (learn (learn (learn (emptyTrie : Trie Nat (LF Nat)) [0, 0] 0) [0, 1] 1)
        [0, 1] 1) [0, 0] overlapStep 0).map
      (fun ems => majorityVote (labelFreqSum (kBestSpec 2 ems))) = some 1 := by
  have hrun : compareRun (learn (learn (learn (emptyTrie : Trie Nat (LF Nat)) [0, 0] 0)
      [0, 1] 1) [0, 1] 1) [0, 0] overlapStep 0
      = some [(2, [(0, 1)]), (1, [(1, 2)])] := by
    simp [learn, insertW, emptyTrie, updChild, mapAdd, Trie.data, Trie.nodes, compareRun,
      cmpNodes, overlapStep]
  constructor
  · unfold classify2
    rw [hrun]
    decide
  · rw [hrun]
    decide

end Claims

section Witnesses

/-- Witness for C1 at an initially empty trie, the key [1, 2] and the value 5. -/
theorem claim_index_assign_retrieves_witness :
    dataAt? (insertW (insertW (emptyTrie : Trie Nat Nat) [1, 2] (fun _ => 5)) [1, 2] id)
      [1, 2] = some 5 ∧
    matchFn (insertW (emptyTrie : Trie Nat Nat) [1, 2] (fun _ => 5)) [1, 2] = (true, 5) :=
  claim_index_assign_retrieves (emptyTrie : Trie Nat Nat) [1, 2] 5

/-- Witness for C2 at the trie holding only the key [1, 2] with data 5 and the
query [1, 2, 3]: the match fails with the data at the stored prefix, and the
consumed prefix is at least as long as the consumable prefix [1]. -/
theorem claim_match_longest_consumed_witness :
    matchFn (insertW (emptyTrie : Trie Nat Nat) [1, 2] (fun _ => 5)) ([1, 2] ++ 3 :: [])
      = (false, 5) ∧
    ([1] : List Nat).length ≤
      (matchedPre (insertW (emptyTrie : Trie Nat Nat) [1, 2] (fun _ => 5)) [1, 2, 3]).length := by
  constructor
  · exact (claim_match_longest_consumed (insertW (emptyTrie : Trie Nat Nat) [1, 2] (fun _ => 5))
      [1, 2, 3]).2.2.2.2.2.2 [1, 2] [] 3 (Trie.mk 5 []) (by rfl) (by rfl)
  · exact (claim_match_longest_consumed (insertW (emptyTrie : Trie Nat Nat) [1, 2] (fun _ => 5))
      [1, 2, 3]).2.2.2.1 [1] (by decide) (by rfl)

/-- Witness for C3: the invariant holds after inserting concrete keys into an
initially empty trie through each inserting operation. -/
theorem claim_edges_sorted_invariant_witness :
    Sorted (insertW (Trie.mk (0 : Nat) ([] : List (Nat × Trie Nat Nat))) [2, 1] (fun _ => 5)) ∧
    Sorted (insertUpd (Trie.mk (0 : Nat) ([] : List (Nat × Trie Nat Nat))) [2, 1] (fun d => d + 1)) ∧
    Sorted (iterInsert (Trie.mk (0 : Nat) ([] : List (Nat × Trie Nat Nat))) [2, 1] 9) := by
  obtain ⟨h0, hW, hU, hI, _⟩ := @claim_edges_sorted_invariant Nat Nat _ _
  exact ⟨hW _ _ _ (h0 0), hU _ _ _ (h0 0), hI _ _ _ (h0 0)⟩

/-- Witness for C7 at a trie holding [1] with data 3, inserting [1, 2] with value
9: the final node gets 9, the pre-existing prefix keeps 3, the fresh root-level
default stays for the empty prefix, and an incomparable key is untouched. -/
theorem claim_insert_overwrites_only_final_witness :
    dataAt? (insertW (insertW (emptyTrie : Trie Nat Nat) [1] (fun _ => 3)) [1, 2]
      (fun _ => 9)) [1, 2] = some 9 ∧
    dataAt? (insertW (insertW (emptyTrie : Trie Nat Nat) [1] (fun _ => 3)) [1, 2]
      (fun _ => 9)) [1] = some 3 ∧
    dataAt? (insertW (insertW (emptyTrie : Trie Nat Nat) [1] (fun _ => 3)) [1, 2]
      (fun _ => 9)) [7] = dataAt? (insertW (emptyTrie : Trie Nat Nat) [1] (fun _ => 3)) [7] := by
  obtain ⟨h1, h2, h3, _⟩ := claim_insert_overwrites_only_final
    (insertW (emptyTrie : Trie Nat Nat) [1] (fun _ => 3)) [1, 2] 9
  refine ⟨h1, ?_, h3 [7] (by decide)⟩
  rw [h2 [1] (by decide) (by decide)]
  rfl

/-- Witness for C8, the spec's own example: inserting the key [1, 2] with an
increment function into an empty trie bumps the data at [], [1] and [1, 2] from
the default 0 to 1, and leaves an incomparable key absent. -/
theorem claim_insert_functor_bumps_path_witness :
    dataAt? (insertUpd (emptyTrie : Trie Nat Nat) [1, 2] (fun d => d + 1)) [] = some 1 ∧
    dataAt? (insertUpd (emptyTrie : Trie Nat Nat) [1, 2] (fun d => d + 1)) [1] = some 1 ∧
    dataAt? (insertUpd (emptyTrie : Trie Nat Nat) [1, 2] (fun d => d + 1)) [1, 2] = some 1 ∧
    dataAt? (insertUpd (emptyTrie : Trie Nat Nat) [1, 2] (fun d => d + 1)) [2]
      = dataAt? (emptyTrie : Trie Nat Nat) [2] := by
  obtain ⟨hp, hf⟩ := claim_insert_functor_bumps_path (emptyTrie : Trie Nat Nat) [1, 2]
    (fun d => d + 1)
  refine ⟨?_, ?_, ?_, hf [2] (by decide)⟩
  · rw [hp [] (by decide)]
    rfl
  · rw [hp [1] (by decide)]
    rfl
  · rw [hp [1, 2] (by decide)]
    rfl

/-- Witness for C9 at a trie that learned [0] with label 7 and is queried with the
non-overlapping [1]: the only candidate scores 0, so the default label 0 — not
7 — is returned. -/
theorem claim_knn_zero_never_selected_witness :
    classify1 (learn (emptyTrie : Trie Nat (LF Nat)) [0] 7) [1] = some 0 ∧
    majorityVote ([] : LF Nat) = 0 := by
  obtain ⟨hmv, _, hz⟩ := @claim_knn_zero_never_selected Nat Nat _ _ _
  refine ⟨?_, hmv⟩
  exact hz (learn (emptyTrie : Trie Nat (LF Nat)) [0] 7) [1] [(0, [(7, 1)])]
    (by simp [learn, insertW, emptyTrie, updChild, mapAdd, Trie.data, Trie.nodes, compareRun,
      cmpNodes, overlapStep]) (by decide)

/-- Witness for C10 at the pattern [5] and a one-node trie: the in-range call
succeeds while the empty pattern on the same trie dereferences out of bounds. -/
theorem claim_compare_deref_bounds_witness :
    (cmpNodes (fun s x y => s + x + y) [(5 : Nat)] [((1 : Nat), Trie.mk (0 : Nat) [])]
      0 0).isSome ∧
    cmpNodes (fun s x y => s + x + y) ([] : List Nat) [((1 : Nat), Trie.mk (0 : Nat) [])]
      0 0 = none := by
  refine ⟨?_, ?_⟩
  · exact (@claim_compare_deref_bounds Nat Nat Nat Nat _ (fun s x y => s + x + y) [(5 : Nat)]).1
      [((1 : Nat), Trie.mk (0 : Nat) [])] 0 (by decide)
  · exact (@claim_compare_deref_bounds Nat Nat Nat Nat _ (fun s x y => s + x + y) [(5 : Nat)]).2.2
      1 (Trie.mk (0 : Nat) []) [] 0

end Witnesses

section CursorLemmas

/-- Following a concatenation of index paths is following them in sequence. -/
theorem follow_append (t : Trie α δ) (p q : List Nat) :
    follow t (p ++ q) = (follow t p).bind (fun s => follow s q) := by
  induction p generalizing t with
  | nil => simp [follow]
  | cons i is ih =>
    cases hi : t.nodes[i]? with
    | some nd =>
      simp only [List.cons_append, follow, hi]
      exact ih nd.2
    | none => simp [follow, hi]

/-- Following one extra index reads the indexed child of the reached node. -/
theorem follow_snoc (t : Trie α δ) (p : List Nat) (i : Nat) :
    follow t (p ++ [i]) = (follow t p).bind (fun s => (s.nodes[i]?).map Prod.snd) := by
  rw [follow_append]
  cases hp : follow t p with
  | none => rfl
  | some s =>
    simp only [Option.some_bind]
    cases hi : s.nodes[i]? with
    | some nd => simp [follow, hi]
    | none => simp [follow, hi]

/-- A cursor whose full path exists has an existing below-stack path. -/
theorem follow_isSome_of_cons (t : Trie α δ) (i : Nat) (rest : List Nat)
    (h : (follow t (i :: rest).reverse).isSome) : (follow t rest.reverse).isSome := by
  rw [List.reverse_cons, follow_snoc] at h
  cases hp : follow t rest.reverse with
  | none => rw [hp] at h; simp at h
  | some s => rfl

/-- The node a positioned cursor points at is a child of the node below it, at the
index stored on top. -/
theorem follow_cons_elim (t : Trie α δ) (i : Nat) (rest : List Nat) (B : Trie α δ)
    (h : follow t (i :: rest).reverse = some B) :
    ∃ P, follow t rest.reverse = some P ∧ ∃ a, P.nodes[i]? = some (a, B) := by
  rw [List.reverse_cons, follow_snoc] at h
  cases hp : follow t rest.reverse with
  | none => rw [hp] at h; simp at h
  | some P =>
    rw [hp] at h
    simp only [Option.some_bind] at h
    cases hi : P.nodes[i]? with
    | none => rw [hi] at h; simp at h
    | some nd =>
      rw [hi] at h
      simp only [Option.map_some'] at h
      refine ⟨P, rfl, nd.1, ?_⟩
      rw [hi]
      obtain ⟨a, b⟩ := nd
      simp at h
      simp [h]

/-- Size bound for the last child, mirroring the termination argument of the
descend loop. -/
theorem sizeOf_lastChild_lt (d : δ) (n : α × Trie α δ) (ns : List (α × Trie α δ)) :
    sizeOf (((n :: ns).getLast (by simp)).2) < sizeOf (Trie.mk d (n :: ns)) := by
  have h1 := List.sizeOf_lt_of_mem (List.getLast_mem (l := n :: ns) (by simp))
  cases hL : (n :: ns).getLast (by simp) with
  | mk a c =>
    rw [hL] at h1
    simp only [Prod.mk.sizeOf_spec, Trie.mk.sizeOf_spec] at h1 ⊢
    omega

/-- The descend loop stops immediately at a leaf. -/
theorem descend_leaf (d : δ) (c : List Nat) : descend (Trie.mk d ([] : List (α × Trie α δ))) c = c := by
  simp [descend]

/-- Auxiliary form of the ++/descend inverse: incrementing from the state reached
by the descend loop pops the whole descended chain back off.  The natural number
bounds the size of the node descended from. -/
theorem incr_descend_aux (t : Trie α δ) :
    ∀ (N : Nat) (A : Trie α δ), sizeOf A ≤ N →
    ∀ (j : Nat) (rest : List Nat), follow t ((j :: rest).reverse) = some A →
    incr t (descend A (j :: rest)) = popUp t (j + 1) rest := by
  intro N
  induction N with
  | zero =>
    intro A hA
    cases A with
    | mk d ns =>
      simp [Trie.mk.sizeOf_spec] at hA
  | succ N ih =>
    intro A hA j rest h
    cases A with
    | mk d ns =>
      cases ns with
      | nil =>
        rw [descend_leaf]
        have hcond : ¬ (rest = [] ∧ j = t.nodes.length) := by
          rintro ⟨hr, hj⟩
          subst hr
          obtain ⟨P, hP, a, ha⟩ := follow_cons_elim t j [] _ h
          simp [follow] at hP
          subst hP
          rw [hj] at ha
          rw [List.getElem?_eq_none_iff.mpr le_rfl] at ha
          exact Option.noConfusion ha
        simp only [incr, if_neg hcond, h]
        simp
      | cons n ns' =>
        have hlast : ((n :: ns').getLast (by simp)) = (n :: ns')[(n :: ns').length - 1] := by
          rw [List.getLast_eq_getElem]
        have hdes : descend (Trie.mk d (n :: ns')) (j :: rest)
            = descend (((n :: ns').getLast (by simp)).2)
              (((n :: ns').length - 1) :: j :: rest) := by
          simp [descend]
        rw [hdes]
        have hsz : sizeOf (((n :: ns').getLast (by simp)).2) ≤ N := by
          have := sizeOf_lastChild_lt d n ns'
          omega
        have hfoll : follow t ((((n :: ns').length - 1) :: j :: rest).reverse)
            = some (((n :: ns').getLast (by simp)).2) := by
          rw [List.reverse_cons, follow_snoc, h]
          simp only [Option.some_bind]
          have hm : (n :: ns')[(n :: ns').length - 1]?
              = some ((n :: ns')[(n :: ns').length - 1]) := by
            rw [List.getElem?_eq_getElem]
          rw [Trie.nodes_mk, hm]
          simp [hlast]
        rw [ih _ hsz _ _ hfoll]
        have hlen : (n :: ns').length - 1 + 1 = (n :: ns').length := by
          simp
        simp only [popUp, h, Trie.nodes_mk, hlen, eq_self_iff_true, if_true]

/-- Incrementing from the state reached by the descend loop pops the descended
chain back off. -/
theorem incr_descend (t A : Trie α δ) (j : Nat) (rest : List Nat)
    (h : follow t ((j :: rest).reverse) = some A) :
    incr t (descend A (j :: rest)) = popUp t (j + 1) rest :=
  incr_descend_aux t (sizeOf A) A le_rfl j rest h

/-- Decrementing from the state reached by the pop-and-advance loop descends back
to the node the loop started from. -/
theorem decr_popUp (t : Trie α δ) :
    ∀ (rest : List Nat) (it : Nat) (B : Trie α δ), 1 ≤ it →
    follow t (((it - 1) :: rest).reverse) = some B →
    decr t (popUp t it rest) = descend B ((it - 1) :: rest) := by
  intro rest
  induction rest with
  | nil =>
    intro it B h1 h2
    have hne : ¬ it = 0 := by omega
    simp only [popUp, decr, if_neg hne, h2]
  | cons j rs ih =>
    intro it B h1 h2
    have hCs : (follow t ((j :: rs).reverse)).isSome := follow_isSome_of_cons t (it - 1) (j :: rs) (by rw [h2]; rfl)
    obtain ⟨C, hC⟩ := Option.isSome_iff_exists.mp hCs
    by_cases heq : it = C.nodes.length
    · have hpop : popUp t it (j :: rs) = popUp t (j + 1) rs := by
        simp only [popUp, hC, if_pos heq]
      rw [hpop]
      have hfoll : follow t (((j + 1 - 1) :: rs).reverse) = some C := by
        simpa using hC
      rw [ih (j + 1) C (by omega) hfoll]
      obtain ⟨P, hP, a, ha⟩ := follow_cons_elim t (it - 1) (j :: rs) B h2
      rw [hC] at hP
      injection hP with hP
      subst hP
      cases hns : C.nodes with
      | nil =>
        rw [hns] at heq
        simp at heq
        omega
      | cons n ns' =>
        cases C with
        | mk dc nsc =>
          simp only [Trie.nodes_mk] at hns
          subst hns
          have hidx : (n :: ns').length - 1 = it - 1 := by
            simp only [Trie.nodes_mk] at heq
            omega
          have hgl : ((n :: ns').getLast (by simp)) = (a, B) := by
            have hq : (n :: ns')[(n :: ns').length - 1]? = some (a, B) := by
              rw [hidx]
              simpa using ha
            obtain ⟨hlt2, hval⟩ := List.getElem?_eq_some_iff.mp hq
            rw [List.getLast_eq_getElem]
            exact hval
          simp only [descend, hgl]
          rw [hidx]
          simp
    · have hpop : popUp t it (j :: rs) = it :: j :: rs := by
        simp only [popUp, hC, if_neg heq]
      rw [hpop]
      have hne : ¬ it = 0 := by omega
      simp only [decr, if_neg hne, h2]

/-- Decrement is a left inverse of increment on `begin()` and on every positioned
cursor. -/
theorem decr_incr (t : Trie α δ) (c : List Nat)
    (h : c = [] ∨ (follow t c.reverse).isSome) : decr t (incr t c) = c := by
  rcases h with h | h
  · subst h
    simp [incr, decr]
  · cases c with
    | nil => simp [incr, decr]
    | cons i rest =>
      obtain ⟨B, hB⟩ := Option.isSome_iff_exists.mp h
      have hcond : ¬ (rest = [] ∧ i = t.nodes.length) := by
        rintro ⟨hr, hi⟩
        subst hr
        obtain ⟨P, hP, a, ha⟩ := follow_cons_elim t i [] B hB
        simp [follow] at hP
        subst hP
        rw [hi, List.getElem?_eq_none_iff.mpr le_rfl] at ha
        exact Option.noConfusion ha
      cases B with
      | mk d ns =>
        cases ns with
        | nil =>
          have hinc : incr t (i :: rest) = popUp t (i + 1) rest := by
            simp only [incr, if_neg hcond, hB]
            simp
          rw [hinc]
          rw [decr_popUp t rest (i + 1) (Trie.mk d []) (by omega) (by simpa using hB)]
          rw [descend_leaf]
          simp
        | cons n ns' =>
          have hinc : incr t (i :: rest) = 0 :: i :: rest := by
            simp only [incr, if_neg hcond, hB]
            simp
          rw [hinc]
          simp [decr]

/-- Increment is a left inverse of decrement on `end()` and on every positioned
cursor. -/
theorem incr_decr (t : Trie α δ) (c : List Nat)
    (h : c = endCur t ∨ (follow t c.reverse).isSome) (hne : c ≠ []) :
    incr t (decr t c) = c := by
  cases c with
  | nil => exact absurd rfl hne
  | cons i rest =>
    by_cases hi : i = 0
    · subst hi
      have hdec : decr t (0 :: rest) = rest := by simp [decr]
      rw [hdec]
      cases rest with
      | nil => simp [incr]
      | cons j rs =>
        have hpos : (follow t ((0 : Nat) :: j :: rs).reverse).isSome := by
          rcases h with h | h
          · exfalso
            unfold endCur at h
            simp at h
          · exact h
        obtain ⟨B, hB⟩ := Option.isSome_iff_exists.mp hpos
        obtain ⟨P, hP, a, ha⟩ := follow_cons_elim t 0 (j :: rs) B hB
        have hcond : ¬ (rs = [] ∧ j = t.nodes.length) := by
          rintro ⟨hr, hj⟩
          subst hr
          obtain ⟨Q, hQ, b, hb⟩ := follow_cons_elim t j [] P hP
          simp [follow] at hQ
          subst hQ
          rw [hj, List.getElem?_eq_none_iff.mpr le_rfl] at hb
          exact Option.noConfusion hb
        have hPn : P.nodes.isEmpty = false := by
          cases P with
          | mk dp nsp =>
            cases nsp with
            | nil =>
              rw [Trie.nodes_mk] at ha
              rw [List.getElem?_eq_none_iff.mpr (by simp)] at ha
              exact Option.noConfusion ha
            | cons q qs => simp
        simp only [incr, if_neg hcond, hP, hPn]
        simp
    · have h1 : (1 : Nat) ≤ i := by omega
      rcases h with hend | hpos
      · have hr : i = t.nodes.length ∧ rest = [] := by
          unfold endCur at hend
          injection hend with ha hb
          exact ⟨ha, hb⟩
        obtain ⟨hilen, hrest0⟩ := hr
        subst hrest0
        have hlt : i - 1 < t.nodes.length := by omega
        have hsome : t.nodes[i - 1]? = some (t.nodes[i - 1]) := List.getElem?_eq_getElem hlt
        have hfoll : follow t (((i - 1) :: ([] : List Nat)).reverse)
            = some (t.nodes[i - 1]).2 := by
          simp [follow, hsome]
        have hdec : decr t (i :: []) = descend (t.nodes[i - 1]).2 ((i - 1) :: []) := by
          simp only [decr, if_neg hi, hfoll]
        rw [hdec, incr_descend t _ _ _ hfoll]
        rw [show i - 1 + 1 = i from by omega]
        simp [popUp]
      · obtain ⟨B, hB⟩ := Option.isSome_iff_exists.mp hpos
        obtain ⟨P, hP, a, ha⟩ := follow_cons_elim t i rest B hB
        have hilen : i < P.nodes.length := (List.getElem?_eq_some_iff.mp ha).1
        have hsome : P.nodes[i - 1]? = some (P.nodes[i - 1]) :=
          List.getElem?_eq_getElem (by omega)
        have hfoll : follow t (((i - 1) :: rest).reverse) = some (P.nodes[i - 1]).2 := by
          rw [List.reverse_cons, follow_snoc, hP]
          simp [hsome]
        have hdec : decr t (i :: rest) = descend (P.nodes[i - 1]).2 ((i - 1) :: rest) := by
          simp only [decr, if_neg hi, hfoll]
        rw [hdec, incr_descend t _ _ _ hfoll]
        rw [show i - 1 + 1 = i from by omega]
        cases rest with
        | nil => simp [popUp]
        | cons j rs =>
          simp only [popUp, hP, if_neg (by omega : ¬ i = P.nodes.length)]

/-- The state reached by the descend loop is a positioned cursor. -/
theorem descend_valid_aux (t : Trie α δ) :
    ∀ (N : Nat) (A : Trie α δ), sizeOf A ≤ N →
    ∀ (j : Nat) (rest : List Nat), follow t ((j :: rest).reverse) = some A →
    (follow t (descend A (j :: rest)).reverse).isSome := by
  intro N
  induction N with
  | zero =>
    intro A hA
    cases A with
    | mk d ns => simp [Trie.mk.sizeOf_spec] at hA
  | succ N ih =>
    intro A hA j rest h
    cases A with
    | mk d ns =>
      cases ns with
      | nil =>
        rw [descend_leaf, h]
        rfl
      | cons n ns' =>
        have hlast : ((n :: ns').getLast (by simp)) = (n :: ns')[(n :: ns').length - 1] := by
          rw [List.getLast_eq_getElem]
        have hdes : descend (Trie.mk d (n :: ns')) (j :: rest)
            = descend (((n :: ns').getLast (by simp)).2)
              (((n :: ns').length - 1) :: j :: rest) := by
          simp [descend]
        rw [hdes]
        have hsz : sizeOf (((n :: ns').getLast (by simp)).2) ≤ N := by
          have := sizeOf_lastChild_lt d n ns'
          omega
        have hfoll : follow t ((((n :: ns').length - 1) :: j :: rest).reverse)
            = some (((n :: ns').getLast (by simp)).2) := by
          rw [List.reverse_cons, follow_snoc, h]
          simp only [Option.some_bind]
          have hm : (n :: ns')[(n :: ns').length - 1]?
              = some ((n :: ns')[(n :: ns').length - 1]) := by
            rw [List.getElem?_eq_getElem]
          rw [Trie.nodes_mk, hm]
          simp [hlast]
        exact ih _ hsz _ _ hfoll

/-- The state reached by the descend loop is a positioned cursor. -/
theorem descend_valid (t A : Trie α δ) (j : Nat) (rest : List Nat)
    (h : follow t ((j :: rest).reverse) = some A) :
    (follow t (descend A (j :: rest)).reverse).isSome :=
  descend_valid_aux t (sizeOf A) A le_rfl j rest h

/-- The pop-and-advance loop lands on a valid cursor (positioned or End). -/
theorem popUp_valid (t : Trie α δ) :
    ∀ (rest : List Nat) (it : Nat) (C : Trie α δ),
    follow t rest.reverse = some C → it ≤ C.nodes.length →
    ValidCur t (popUp t it rest) := by
  intro rest
  induction rest with
  | nil =>
    intro it C hC hle
    simp only [List.reverse_nil, follow] at hC
    injection hC with hC
    subst hC
    by_cases heq : it = t.nodes.length
    · subst heq
      exact Or.inr (Or.inl rfl)
    · refine Or.inr (Or.inr ?_)
      have hlt : it < t.nodes.length := by omega
      simp only [popUp, List.reverse_cons, List.reverse_nil, List.nil_append]
      simp [follow, List.getElem?_eq_getElem hlt]
  | cons j rs ih =>
    intro it C hC hle
    obtain ⟨P, hP, a, ha⟩ := follow_cons_elim t j rs C hC
    by_cases heq : it = C.nodes.length
    · have hpop : popUp t it (j :: rs) = popUp t (j + 1) rs := by
        simp only [popUp, hC, if_pos heq]
      rw [hpop]
      have hjlt : j < P.nodes.length := (List.getElem?_eq_some_iff.mp ha).1
      exact ih (j + 1) P hP (by omega)
    · have hpop : popUp t it (j :: rs) = it :: j :: rs := by
        simp only [popUp, hC, if_neg heq]
      rw [hpop]
      refine Or.inr (Or.inr ?_)
      rw [List.reverse_cons, follow_snoc, hC]
      simp only [Option.some_bind]
      rw [List.getElem?_eq_getElem (by omega : it < C.nodes.length)]
      rfl

/-- Increment from `begin()` yields a valid cursor. -/
theorem incr_nil_valid (t : Trie α δ) : ValidCur t (incr t []) := by
  have h0 : incr t [] = [0] := rfl
  rw [h0]
  by_cases hz : t.nodes.length = 0
  · refine Or.inr (Or.inl ?_)
    unfold endCur
    rw [hz]
  · refine Or.inr (Or.inr ?_)
    have hlt : 0 < t.nodes.length := by omega
    simp [follow, List.getElem?_eq_getElem hlt]

/-- Increment preserves cursor validity. -/
theorem incr_valid (t : Trie α δ) (c : List Nat) (h : ValidCur t c) :
    ValidCur t (incr t c) := by
  rcases h with h | h | h
  · subst h
    exact incr_nil_valid t
  · subst h
    have : incr t (endCur t) = endCur t := by
      unfold incr endCur
      simp
    rw [this]
    exact Or.inr (Or.inl rfl)
  · cases c with
    | nil => exact incr_nil_valid t
    | cons i rest =>
      obtain ⟨B, hB⟩ := Option.isSome_iff_exists.mp h
      have hcond : ¬ (rest = [] ∧ i = t.nodes.length) := by
        rintro ⟨hr, hi⟩
        subst hr
        obtain ⟨P, hP, a, ha⟩ := follow_cons_elim t i [] B hB
        simp [follow] at hP
        subst hP
        rw [hi, List.getElem?_eq_none_iff.mpr le_rfl] at ha
        exact Option.noConfusion ha
      obtain ⟨P, hP, a, ha⟩ := follow_cons_elim t i rest B hB
      cases B with
      | mk d ns =>
        cases ns with
        | nil =>
          have hinc : incr t (i :: rest) = popUp t (i + 1) rest := by
            simp only [incr, if_neg hcond, hB]
            simp
          rw [hinc]
          have hilt : i < P.nodes.length := (List.getElem?_eq_some_iff.mp ha).1
          exact popUp_valid t rest (i + 1) P hP (by omega)
        | cons n ns' =>
          have hinc : incr t (i :: rest) = 0 :: i :: rest := by
            simp only [incr, if_neg hcond, hB]
            simp
          rw [hinc]
          refine Or.inr (Or.inr ?_)
          rw [List.reverse_cons, follow_snoc, hB]
          simp only [Option.some_bind, Trie.nodes_mk]
          rw [List.getElem?_eq_getElem (by simp : 0 < (n :: ns').length)]
          rfl

/-- Decrement preserves cursor validity. -/
theorem decr_valid (t : Trie α δ) (c : List Nat) (h : ValidCur t c) :
    ValidCur t (decr t c) := by
  rcases h with h | h | h
  · subst h
    exact Or.inl rfl
  · subst h
    unfold endCur
    by_cases hz : t.nodes.length = 0
    · rw [hz]
      simp only [decr, if_pos rfl]
      exact Or.inl rfl
    · have hi : ¬ t.nodes.length = 0 := hz
      have hlt : t.nodes.length - 1 < t.nodes.length := by omega
      have hsome : t.nodes[t.nodes.length - 1]? = some (t.nodes[t.nodes.length - 1]) :=
        List.getElem?_eq_getElem hlt
      have hfoll : follow t (((t.nodes.length - 1) :: ([] : List Nat)).reverse)
          = some (t.nodes[t.nodes.length - 1]).2 := by
        simp [follow, hsome]
      have hdec : decr t (t.nodes.length :: []) =
          descend (t.nodes[t.nodes.length - 1]).2 ((t.nodes.length - 1) :: []) := by
        simp only [decr, if_neg hi, hfoll]
      rw [hdec]
      exact Or.inr (Or.inr (descend_valid t _ _ _ hfoll))
  · cases c with
    | nil => exact Or.inl rfl
    | cons i rest =>
      by_cases hi : i = 0
      · subst hi
        have hdec : decr t (0 :: rest) = rest := by simp [decr]
        rw [hdec]
        cases rest with
        | nil => exact Or.inl rfl
        | cons j rs =>
          exact Or.inr (Or.inr (follow_isSome_of_cons t 0 (j :: rs) h))
      · obtain ⟨B, hB⟩ := Option.isSome_iff_exists.mp h
        obtain ⟨P, hP, a, ha⟩ := follow_cons_elim t i rest B hB
        have hilen : i < P.nodes.length := (List.getElem?_eq_some_iff.mp ha).1
        have hsome : P.nodes[i - 1]? = some (P.nodes[i - 1]) :=
          List.getElem?_eq_getElem (by omega)
        have hfoll : follow t (((i - 1) :: rest).reverse) = some (P.nodes[i - 1]).2 := by
          rw [List.reverse_cons, follow_snoc, hP]
          simp [hsome]
        have hdec : decr t (i :: rest) = descend (P.nodes[i - 1]).2 ((i - 1) :: rest) := by
          simp only [decr, if_neg hi, hfoll]
        rw [hdec]
        exact Or.inr (Or.inr (descend_valid t _ _ _ hfoll))

/-- Increment saturates at the End state. -/
theorem incr_endCur (t : Trie α δ) : incr t (endCur t) = endCur t := by
  unfold incr endCur
  simp

/-- Decrement saturates at the Begin state. -/
theorem decr_nil (t : Trie α δ) : decr t [] = [] := rfl

/-- Every iterated increment from `begin()` is a valid cursor. -/
theorem valid_incr_iter (t : Trie α δ) (N : Nat) : ValidCur t ((incr t)^[N] []) := by
  induction N with
  | zero => exact Or.inl rfl
  | succ N ih =>
    rw [Function.iterate_succ_apply']
    exact incr_valid t _ ih

/-- Every iterated decrement from `end()` is a valid cursor. -/
theorem valid_decr_iter (t : Trie α δ) (N : Nat) : ValidCur t ((decr t)^[N] (endCur t)) := by
  induction N with
  | zero => exact Or.inr (Or.inl rfl)
  | succ N ih =>
    rw [Function.iterate_succ_apply']
    exact decr_valid t _ ih

/-- N increments from `begin()` followed by N decrements return to `begin()`. -/
theorem iter_decr_incr (t : Trie α δ) (N : Nat) :
    (decr t)^[N] ((incr t)^[N] []) = [] := by
  induction N with
  | zero => rfl
  | succ N ih =>
    rw [Function.iterate_succ_apply' (incr t)]
    rcases valid_incr_iter t N with hv | hv | hv
    · rw [Function.iterate_succ_apply (decr t), decr_incr t _ (Or.inl hv)]
      exact ih
    · rw [hv, incr_endCur, Function.iterate_succ_apply' (decr t), ← hv, ih]
      rfl
    · rw [Function.iterate_succ_apply (decr t), decr_incr t _ (Or.inr hv)]
      exact ih

/-- N decrements from `end()` followed by N increments return to `end()`. -/
theorem iter_incr_decr (t : Trie α δ) (N : Nat) :
    (incr t)^[N] ((decr t)^[N] (endCur t)) = endCur t := by
  induction N with
  | zero => rfl
  | succ N ih =>
    rw [Function.iterate_succ_apply' (decr t)]
    have hnil : ∀ hc : (decr t)^[N] (endCur t) = [],
        (incr t)^[N + 1] (decr t ((decr t)^[N] (endCur t))) = endCur t := by
      intro hc
      rw [hc, decr_nil, Function.iterate_succ_apply' (incr t)]
      rw [hc] at ih
      rw [ih]
      exact incr_endCur t
    rcases valid_decr_iter t N with hv | hv | hv
    · exact hnil hv
    · rw [hv]
      rw [Function.iterate_succ_apply (incr t),
        incr_decr t _ (Or.inl rfl) (by unfold endCur; simp)]
      rw [hv] at ih
      exact ih
    · by_cases hc : (decr t)^[N] (endCur t) = []
      · exact hnil hc
      · rw [Function.iterate_succ_apply (incr t), incr_decr t _ (Or.inr hv) hc]
        exact ih

end CursorLemmas

section CursorClaims

/-- C6: for every trie and every N not exceeding the number of pre-order
positions, N cursor increments from `begin()` followed by N decrements return the
cursor to `begin()`, and N decrements from `end()` followed by N increments
return it to `end()`; moreover, when the trie is non-empty, one decrement from
the End state yields a Positioned state — the unique positioned state of the
pre-order walk whose increment reaches End, i.e. the last one. -/
theorem claim_cursor_increment_decrement (t : Trie α δ) (N : Nat)
    (h : N ≤ countList t.nodes + 1) :
    (decr t)^[N] ((incr t)^[N] []) = [] ∧
    (incr t)^[N] ((decr t)^[N] (endCur t)) = endCur t ∧
    (t.nodes ≠ [] →
      (follow t (decr t (endCur t)).reverse).isSome ∧
      incr t (decr t (endCur t)) = endCur t ∧
      (∀ c : List Nat, (follow t c.reverse).isSome → incr t c = endCur t →
        c = decr t (endCur t))) := by
  refine ⟨iter_decr_incr t N, iter_incr_decr t N, ?_⟩
  intro hne
  have hz : ¬ t.nodes.length = 0 := by
    intro hc
    exact hne (List.eq_nil_of_length_eq_zero hc)
  have hlt : t.nodes.length - 1 < t.nodes.length := by omega
  have hsome : t.nodes[t.nodes.length - 1]? = some (t.nodes[t.nodes.length - 1]) :=
    List.getElem?_eq_getElem hlt
  have hfoll : follow t (((t.nodes.length - 1) :: ([] : List Nat)).reverse)
      = some (t.nodes[t.nodes.length - 1]).2 := by
    simp [follow, hsome]
  have hdec : decr t (endCur t) =
      descend (t.nodes[t.nodes.length - 1]).2 ((t.nodes.length - 1) :: []) := by
    unfold endCur
    simp only [decr, if_neg hz, hfoll]
  refine ⟨?_, ?_, ?_⟩
  · rw [hdec]
    exact descend_valid t _ _ _ hfoll
  · exact incr_decr t (endCur t) (Or.inl rfl) (by unfold endCur; simp)
  · intro c hc hinc
    have := decr_incr t c (Or.inr hc)
    rw [hinc] at this
    exact this.symm

/-- Witness for C6 at the one-node trie with a single child (element 1, data 2)
and N = 2 pre-order steps: round trips from begin and the symmetric decrement
from End. -/
theorem claim_cursor_increment_decrement_witness :
    (decr (Trie.mk (0 : Nat) [((1 : Nat), Trie.mk (2 : Nat) [])]))^[2]
      ((incr (Trie.mk (0 : Nat) [((1 : Nat), Trie.mk (2 : Nat) [])]))^[2] []) = [] ∧
    incr (Trie.mk (0 : Nat) [((1 : Nat), Trie.mk (2 : Nat) [])])
      (decr (Trie.mk (0 : Nat) [((1 : Nat), Trie.mk (2 : Nat) [])])
        (endCur (Trie.mk (0 : Nat) [((1 : Nat), Trie.mk (2 : Nat) [])])))
      = endCur (Trie.mk (0 : Nat) [((1 : Nat), Trie.mk (2 : Nat) [])]) := by
  obtain ⟨h1, h2, h3⟩ := claim_cursor_increment_decrement
    (Trie.mk (0 : Nat) [((1 : Nat), Trie.mk (2 : Nat) [])]) 2 (by simp [countList])
  exact ⟨h1, (h3 (by simp)).2.1⟩

end CursorClaims

end TrieCpp
